import Mathlib

/-!
Verification of the `tibs` bit-sequence engine's Python glue layer
(`src/tibs/_bits.py`) against its natural-language specification.

Bit sequences (`Tibs` / `Mutibs` values) are embedded as `List Bool`.
The Rust search and slicing primitives (`_findall`, `_find`, `_rfind`,
`_getslice`, slicing, `to_bytes`) are not part of the Python sources, so
they are modelled from the spec; each such definition carries a doc
comment starting with `Modelled from the spec:`.  All other definitions
are direct translations of the Python methods in `_bits.py`.
-/

namespace TibsModel

/-- A bit sequence value: the logical content of a `Tibs` or `Mutibs`. -/
abbrev Bits := List Bool

/-- The three error kinds surfaced by the library (section 7 of the spec). -/
inductive PyErr where
  | valueError (msg : String)
  | typeError (msg : String)
  | attributeError (msg : String)
deriving DecidableEq, Repr

/-- Translation of `_validate_slice` from `_bits.py`: normalize negative
positions by adding the length, default `None` to the full range, and require
`0 <= start <= end <= length`. -/
def validateSlice (length : Nat) (start stop : Option Int) : Except PyErr (Nat × Nat) :=
  let s : Int := match start with
    | none => 0
    | some v => if v < 0 then v + length else v
  let e : Int := match stop with
    | none => length
    | some v => if v < 0 then v + length else v
  if 0 ≤ s ∧ s ≤ e ∧ e ≤ (length : Int) then .ok (s.toNat, e.toNat)
  else .error (.valueError "Invalid slice positions")

/-- Modelled from the spec: the addressed bit window `[i, i+|pat|)` of `s`
equals `pat` exactly ("correctness requirement is exact equality of the
addressed bit window to `pattern`"). -/
def matchesAt (s pat : Bits) (i : Nat) : Bool :=
  decide (i + pat.length ≤ s.length) && ((s.drop i).take pat.length == pat)

/-- Modelled from the spec: the Rust `_getslice(pos, length)` primitive,
returning `length` bits starting at bit `pos`. -/
def getslice (s : Bits) (pos len : Nat) : Bits := (s.drop pos).take len

/-- Modelled from the spec: the Rust `_findall` primitive.  All (possibly
overlapping) occurrence start positions of `pat` inside the window
`[start, stop)`, in ascending order; with `ba` set, candidate start offsets
are restricted to multiples of 8. -/
def findallRust (s pat : Bits) (start stop : Nat) (ba : Bool) : List Nat :=
  (List.range' start (stop - start)).filter fun i =>
    (!ba || i % 8 == 0) && decide (i + pat.length ≤ stop) && matchesAt s pat i

/-- Modelled from the spec: the Rust `_find` primitive — first occurrence in
the window, or `none`. -/
def findRust (s pat : Bits) (start stop : Nat) (ba : Bool) : Option Nat :=
  (findallRust s pat start stop ba).head?

/-- Modelled from the spec: the Rust `_rfind` primitive — the occurrence whose
start is closest to `stop` (rightmost in the window), or `none`. -/
def rfindRust (s pat : Bits) (start stop : Nat) (ba : Bool) : Option Nat :=
  (findallRust s pat start stop ba).getLast?

/-- Translation of `BaseBitsMethods.find`: validate the slice, reject an empty
pattern, default the alignment from the global options flag `opts`, and
delegate to the search primitive. -/
def find (self bs : Bits) (start stop : Option Int) (byteAligned : Option Bool)
    (opts : Bool) : Except PyErr (Option Nat) := do
  let (s, e) ← validateSlice self.length start stop
  if bs.length = 0 then
    throw (.valueError "Cannot find an empty Tibs.")
  let ba := byteAligned.getD opts
  pure (findRust self bs s e ba)

/-- Translation of `BaseBitsMethods.rfind`. -/
def rfind (self bs : Bits) (start stop : Option Int) (byteAligned : Option Bool)
    (opts : Bool) : Except PyErr (Option Nat) := do
  let (s, e) ← validateSlice self.length start stop
  let ba := byteAligned.getD opts
  if bs.length = 0 then
    throw (.valueError "Cannot find an empty Tibs.")
  pure (rfindRust self bs s e ba)

/-- Translation of `BitsMethods.find_all`: reject a negative count, validate
the slice, and yield at most `count` ascending match positions.  The empty
pattern error is raised by the Rust `_findall` iterator (modelled from the
spec and the method's docstring, which documents the `ValueError`). -/
def find_all (self bs : Bits) (start stop count : Option Int)
    (byteAligned : Option Bool) (opts : Bool) : Except PyErr (List Nat) := do
  if (count.getD 0) < 0 then
    throw (.valueError "In find_all, count must be >= 0.")
  let (s, e) ← validateSlice self.length start stop
  if bs.length = 0 then
    throw (.valueError "Cannot find an empty Tibs.")
  let ba := byteAligned.getD opts
  let ms := findallRust self bs s e ba
  pure (match count with
    | none => ms
    | some c => ms.take c.toNat)

/-- Translation of `BitsMethods.rfind_all`.  The Python body is
`reversed(list(self.find_all(bs, count, start, end, byte_aligned)))`, which
passes `count`, `start` and `end` positionally into `find_all`'s
`(bs, start, end, count, byte_aligned)` parameter list — the translation
reproduces that argument order exactly. -/
def rfind_all (self bs : Bits) (start stop count : Option Int)
    (byteAligned : Option Bool) (opts : Bool) : Except PyErr (List Nat) :=
  (find_all self bs count start stop byteAligned opts).map List.reverse

/-- The break condition of the starting-point loop in
`MutableBitsMethods.replace`: `count != 0 and len(starting_points) == count`. -/
def brkCond (count : Option Int) (n : Nat) : Bool :=
  match count with
  | none => false
  | some c => c != 0 && (n : Int) == c

/-- The starting-point selection loop of `MutableBitsMethods.replace`: walk the
ascending match positions, keep a position only when it does not overlap the
previously kept one, and stop once `count` positions have been kept.  `acc`
holds the kept positions in reverse order, mirroring `starting_points`
(most recent first). -/
def selectLoop (oldL : Nat) (count : Option Int) : List Nat → List Nat → List Nat
  | [], acc => acc.reverse
  | x :: xs, acc =>
    let acc' := match acc with
      | [] => [x]
      | last :: rest => if last + oldL ≤ x then x :: last :: rest else last :: rest
    if brkCond count acc'.length then acc'.reverse else selectLoop oldL count xs acc'

/-- The tail of the `replacement_list` construction in
`MutableBitsMethods.replace`: for each remaining starting point append the
replacement and the stretch of the original up to the next starting point;
after the last one append the replacement and the rest of the original. -/
def buildReplGo (orig newBits : Bits) (oldL : Nat) (prev : Nat) : List Nat → Bits
  | [] => newBits ++ getslice orig (prev + oldL) (orig.length - prev - oldL)
  | q :: rest => newBits ++ getslice orig (prev + oldL) (q - prev - oldL) ++
      buildReplGo orig newBits oldL q rest

/-- The full `replacement_list` construction of `MutableBitsMethods.replace`,
joined: the original up to the first starting point, then the alternation
produced by `buildReplGo`. -/
def buildRepl (orig newBits : Bits) (oldL : Nat) : List Nat → Bits
  | [] => orig
  | p :: rest => getslice orig 0 p ++ buildReplGo orig newBits oldL p rest

/-- The byte-boundary adjustment in `MutableBitsMethods.replace`:
`start += (8 - start % 8) % 8` when byte alignment is requested. -/
def alignUp (s : Nat) (ba : Bool) : Nat :=
  if ba then s + (8 - s % 8) % 8 else s

/-- Translation of `MutableBitsMethods.replace`.  `count == 0` returns the
receiver unchanged before any validation; an empty `old` is an error; with
byte alignment requested the search start is first advanced to the next byte
boundary; match positions are collected from the (frozen) value of
`self[start:end]`, filtered to be non-overlapping left to right and truncated
at `count`; the result is rebuilt from the frozen `original` snapshot. -/
def replace (self old new : Bits) (start stop count : Option Int)
    (byteAligned : Option Bool) (opts : Bool) : Except PyErr Bits := do
  if count = some 0 then
    pure self
  else
    if old.length = 0 then
      throw (.valueError "Empty Tibs cannot be replaced.")
    else do
      let (s0, e) ← validateSlice self.length start stop
      let ba := byteAligned.getD opts
      let s := alignUp s0 ba
      let slice := (self.drop s).take (e - s)
      let ms ← find_all slice old none none none (some ba) opts
      let sps := selectLoop old.length count (ms.map (· + s)) []
      if sps.isEmpty then
        pure self
      else
        pure (buildRepl self new old.length sps)

/-! ### Spec-side search and replacement definitions

The following definitions follow the specification's words rather than the
code, for comparison with the translations above. -/

/-- `j` is an admissible match start per the spec: alignment restriction,
the occurrence lies inside the window ending at `e`, and the addressed bit
window equals the pattern. -/
def admissible (m old : Bits) (e : Nat) (ba : Bool) (j : Nat) : Bool :=
  (!ba || j % 8 == 0) && decide (j + old.length ≤ e) && matchesAt m old j

/-- The first admissible match start at or after `i` (spec: occurrences are
taken left to right). -/
def findNext (m old : Bits) (e : Nat) (ba : Bool) (i : Nat) : Option Nat :=
  if i < e then
    if admissible m old e ba i then some i else findNext m old e ba (i + 1)
  else none
termination_by e - i

theorem findNext_eq_some_aux {m old : Bits} {e : Nat} {ba : Bool} :
    ∀ d i p, e - i ≤ d → findNext m old e ba i = some p →
    i ≤ p ∧ p < e ∧ admissible m old e ba p = true ∧
      ∀ j, i ≤ j → j < p → admissible m old e ba j = false := by
  intro d
  induction d with
  | zero =>
    intro i p hd h
    rw [findNext, if_neg (by omega)] at h
    cases h
  | succ d ih =>
    intro i p hd h
    rw [findNext] at h
    by_cases hie : i < e
    · rw [if_pos hie] at h
      by_cases ha : admissible m old e ba i = true
      · rw [if_pos ha] at h
        cases h
        exact ⟨Nat.le_refl _, hie, ha, fun j h1 h2 => absurd h1 (by omega)⟩
      · rw [if_neg ha] at h
        obtain ⟨h1, h2, h3, h4⟩ := ih (i + 1) p (by omega) h
        refine ⟨by omega, h2, h3, fun j hj1 hj2 => ?_⟩
        rcases Nat.lt_or_ge j (i + 1) with hj | hj
        · have : j = i := by omega
          subst this
          exact Bool.eq_false_iff.mpr ha
        · exact h4 j hj hj2
    · rw [if_neg hie] at h
      cases h

theorem findNext_eq_some {m old : Bits} {e : Nat} {ba : Bool} {i p : Nat}
    (h : findNext m old e ba i = some p) :
    i ≤ p ∧ p < e ∧ admissible m old e ba p = true ∧
      ∀ j, i ≤ j → j < p → admissible m old e ba j = false :=
  findNext_eq_some_aux (e - i) i p (Nat.le_refl _) h

theorem findNext_eq_none_aux {m old : Bits} {e : Nat} {ba : Bool} :
    ∀ d i, e - i ≤ d → findNext m old e ba i = none →
    ∀ j, i ≤ j → j < e → admissible m old e ba j = false := by
  intro d
  induction d with
  | zero =>
    intro i hd _ j hj1 hj2
    omega
  | succ d ih =>
    intro i hd h j hj1 hj2
    rw [findNext] at h
    by_cases hie : i < e
    · rw [if_pos hie] at h
      by_cases ha : admissible m old e ba i = true
      · rw [if_pos ha] at h; cases h
      · rw [if_neg ha] at h
        rcases Nat.lt_or_ge j (i + 1) with hj | hj
        · have : j = i := by omega
          subst this
          exact Bool.eq_false_iff.mpr ha
        · exact ih (i + 1) (by omega) h j hj hj2
    · omega

theorem findNext_eq_none {m old : Bits} {e : Nat} {ba : Bool} {i : Nat}
    (h : findNext m old e ba i = none) :
    ∀ j, i ≤ j → j < e → admissible m old e ba j = false :=
  findNext_eq_none_aux (e - i) i (Nat.le_refl _) h

/-- The spec's left-to-right non-overlapping occurrence positions: repeatedly
take the first admissible match at or after the cursor, then jump the cursor
past it; stop when the budget (the spec's `count`, `none` = unlimited) runs
out. -/
def greedyPositions (m old : Bits) (e : Nat) (ba : Bool) (budget : Option Nat)
    (i : Nat) : List Nat :=
  if _h0 : old.length = 0 then []
  else if budget = some 0 then []
  else
    match hf : findNext m old e ba i with
    | none => []
    | some p =>
      p :: greedyPositions m old e ba (budget.map (· - 1)) (p + old.length)
termination_by e - i
decreasing_by
  obtain ⟨h1, h2, _, _⟩ := findNext_eq_some hf
  omega

theorem greedyPositions_budget_zero (m old : Bits) (e : Nat) (ba : Bool)
    (i : Nat) : greedyPositions m old e ba (some 0) i = [] := by
  rw [greedyPositions]
  by_cases h0 : old.length = 0
  · rw [dif_pos h0]
  · rw [dif_neg h0, if_pos rfl]

theorem greedyPositions_none {m old : Bits} {e : Nat} {ba : Bool}
    {budget : Option Nat} {i : Nat} (hold : 0 < old.length)
    (hfn : findNext m old e ba i = none) :
    greedyPositions m old e ba budget i = [] := by
  rw [greedyPositions, dif_neg (by omega)]
  by_cases hb : budget = some 0
  · rw [if_pos hb]
  · rw [if_neg hb]
    split
    · rfl
    · rename_i p heq
      rw [hfn] at heq
      cases heq

theorem greedyPositions_some {m old : Bits} {e : Nat} {ba : Bool}
    {budget : Option Nat} {i p : Nat} (hold : 0 < old.length)
    (hb : budget ≠ some 0) (hfn : findNext m old e ba i = some p) :
    greedyPositions m old e ba budget i
      = p :: greedyPositions m old e ba (budget.map (· - 1)) (p + old.length) := by
  rw [greedyPositions, dif_neg (by omega), if_neg hb]
  split
  · rename_i heq
    rw [hfn] at heq
    cases heq
  · rename_i q heq
    rw [hfn] at heq
    cases heq
    rfl

/-- Spec-side replacement scanner: walk the snapshot left to right; at an
admissible occurrence inside the window `[s, e)` (respecting alignment and
remaining budget) emit the replacement and jump past the occurrence, otherwise
copy one bit of the snapshot. -/
def replaceScan (orig old newBits : Bits) (s e : Nat) (ba : Bool)
    (budget : Option Nat) (i : Nat) : Bits :=
  if _h0 : old.length = 0 then orig.drop i
  else if budget = some 0 then orig.drop i
  else if _hm : s ≤ i ∧ admissible orig old e ba i = true then
    newBits ++ replaceScan orig old newBits s e ba (budget.map (· - 1)) (i + old.length)
  else if hi : i < orig.length then
    orig.get ⟨i, hi⟩ :: replaceScan orig old newBits s e ba budget (i + 1)
  else []
termination_by orig.length - i
decreasing_by
  · have hm := _hm.2
    have hlen : i + old.length ≤ orig.length := by
      have := of_decide_eq_true (by
        simp only [admissible, Bool.and_eq_true, matchesAt] at hm
        exact hm.2.1)
      simpa [matchesAt] using this
    omega
  · omega

/-- Follows the spec's words for `replace(old, new, start, end, count,
byte_aligned)`: substitute up to `count` non-overlapping left-to-right
occurrences of `old` inside `[s, e)` (byte-aligned occurrences only when `ba`)
with `newBits`, all positions and preserved segments taken from the snapshot
`self`. -/
def replaceSpec (self old newBits : Bits) (s e : Nat) (count : Option Nat)
    (ba : Bool) : Bits :=
  replaceScan self old newBits s e ba count 0

/-- Greedy selection over an explicit list of candidate positions: keep a
position when it is at or past the cursor, advance the cursor past the kept
occurrence, and stop when the budget runs out. -/
def greedyTake (oldL : Nat) : Option Nat → Nat → List Nat → List Nat
  | _, _, [] => []
  | budget, lo, x :: xs =>
    if budget = some 0 then []
    else if lo ≤ x then x :: greedyTake oldL (budget.map (· - 1)) (x + oldL) xs
    else greedyTake oldL budget lo xs

theorem greedyTake_zero (oldL lo : Nat) (xs : List Nat) :
    greedyTake oldL (some 0) lo xs = [] := by
  cases xs <;> simp [greedyTake]

theorem selectLoop_acc_none (oldL : Nat) :
    ∀ (xs : List Nat) (last : Nat) (rest : List Nat),
    selectLoop oldL none xs (last :: rest)
      = (last :: rest).reverse ++ greedyTake oldL none (last + oldL) xs := by
  intro xs
  induction xs with
  | nil => intro last rest; simp [selectLoop, greedyTake]
  | cons x xs ih =>
    intro last rest
    rw [selectLoop]
    by_cases hx : last + oldL ≤ x
    · simp only [if_pos hx, brkCond, Bool.false_eq_true, if_false]
      rw [ih x (last :: rest), greedyTake]
      simp [hx]
    · simp only [if_neg hx, brkCond, Bool.false_eq_true, if_false]
      rw [ih last rest, greedyTake]
      simp [hx]

theorem brkCond_some_true {c n : Nat} (h0 : 0 < c) (h : n = c) :
    brkCond (some (c : Int)) n = true := by
  subst h
  simp only [brkCond, Bool.and_eq_true, bne_iff_ne, ne_eq, beq_iff_eq]
  exact ⟨fun hc => by omega, trivial⟩

theorem brkCond_some_false {c n : Nat} (h : n ≠ c) :
    brkCond (some (c : Int)) n = false := by
  apply Bool.eq_false_iff.mpr
  intro hcontra
  simp only [brkCond, Bool.and_eq_true, bne_iff_ne, ne_eq, beq_iff_eq] at hcontra
  obtain ⟨h1, h2⟩ := hcontra
  omega

theorem selectLoop_acc_some (oldL : Nat) (c : Nat) :
    ∀ (xs : List Nat) (last : Nat) (rest : List Nat), rest.length + 1 < c →
    selectLoop oldL (some (c : Int)) xs (last :: rest)
      = (last :: rest).reverse ++
          greedyTake oldL (some (c - (rest.length + 1))) (last + oldL) xs := by
  intro xs
  induction xs with
  | nil => intro last rest hlt; simp [selectLoop, greedyTake]
  | cons x xs ih =>
    intro last rest hlt
    rw [selectLoop]
    by_cases hx : last + oldL ≤ x
    · simp only [if_pos hx]
      by_cases hc : rest.length + 2 = c
      · rw [if_pos (brkCond_some_true (by omega) (by simpa using hc))]
        have h1 : c - (rest.length + 1) = 1 := by omega
        rw [h1, greedyTake, if_neg (by simp), if_pos hx]
        simp only [Option.map_some']
        rw [greedyTake_zero]
        simp
      · rw [if_neg (by rw [brkCond_some_false (by simpa using hc)]; simp)]
        rw [ih x (last :: rest) (by simpa using by omega : (last :: rest).length + 1 < c)]
        rw [greedyTake, if_neg (by simp; omega), if_pos hx]
        have h2 : c - (rest.length + 1) - 1 = c - ((last :: rest).length + 1) := by
          simp only [List.length_cons]; omega
        simp only [Option.map_some', h2]
        simp [List.append_assoc]
    · simp only [if_neg hx]
      rw [if_neg (by rw [brkCond_some_false (by simp; omega)]; simp)]
      rw [ih last rest hlt]
      rw [greedyTake, if_neg (by simp; omega), if_neg hx]

/-- The starting-point loop of `replace`, started with an empty accumulator,
computes the greedy left-to-right selection with budget `count`. -/
theorem selectLoop_eq_greedyTake (oldL : Nat) (count : Option Int)
    (hc : count = none ∨ ∃ c : Nat, 0 < c ∧ count = some (c : Int))
    (xs : List Nat) :
    selectLoop oldL count xs [] = greedyTake oldL (count.map Int.toNat) 0 xs := by
  cases xs with
  | nil =>
    rcases hc with rfl | ⟨c, hc0, rfl⟩ <;> simp [selectLoop, greedyTake]
  | cons x xs =>
    rcases hc with rfl | ⟨c, hc0, rfl⟩
    · rw [selectLoop]
      simp only [brkCond, Bool.false_eq_true, if_false]
      rw [selectLoop_acc_none oldL xs x []]
      rw [greedyTake, if_neg (by simp), if_pos (Nat.zero_le x)]
      simp
    · simp only [Option.map_some', Int.toNat_natCast]
      rw [selectLoop]
      by_cases h1 : c = 1
      · subst h1
        rw [if_pos (brkCond_some_true (n := [x].length) Nat.one_pos (by simp))]
        rw [greedyTake, if_neg (by simp), if_pos (Nat.zero_le x)]
        simp only [Option.map_some']
        rw [greedyTake_zero]
        simp
      · rw [if_neg (by rw [brkCond_some_false (by simp; omega)]; simp)]
        rw [selectLoop_acc_some oldL c xs x [] (by simp; omega)]
        rw [greedyTake, if_neg (by simp; omega), if_pos (Nat.zero_le x)]
        simp only [Option.map_some', List.length_nil, List.reverse_cons,
          List.reverse_nil, List.nil_append]
        have hsub : c - (0 + 1) = c - 1 := by omega
        simp [hsub]

theorem admissible_bounds {m old : Bits} {e : Nat} {ba : Bool} {j : Nat}
    (h : admissible m old e ba j = true) :
    j + old.length ≤ e ∧ j + old.length ≤ m.length := by
  simp only [admissible, matchesAt, Bool.and_eq_true, decide_eq_true_eq] at h
  exact ⟨h.1.2, h.2.1⟩

theorem admissible_aligned {m old : Bits} {e : Nat} {j : Nat}
    (h : admissible m old e true j = true) : j % 8 = 0 := by
  simp only [admissible, Bool.and_eq_true, Bool.or_eq_true, Bool.not_true,
    Bool.false_eq_true, false_or, beq_iff_eq] at h
  exact h.1.1

/-- Changing the initial cursor does not change the greedy selection when every
candidate is at or past both cursors. -/
theorem greedyTake_lo_congr (oldL : Nat) (budget : Option Nat)
    (xs : List Nat) (lo1 lo2 : Nat)
    (h1 : ∀ j ∈ xs, lo1 ≤ j) (h2 : ∀ j ∈ xs, lo2 ≤ j) :
    greedyTake oldL budget lo1 xs = greedyTake oldL budget lo2 xs := by
  cases xs with
  | nil => rfl
  | cons x xs =>
    rw [greedyTake, greedyTake]
    by_cases hb : budget = some 0
    · rw [if_pos hb, if_pos hb]
    · rw [if_neg hb, if_neg hb,
        if_pos (h1 x (List.mem_cons_self x xs)),
        if_pos (h2 x (List.mem_cons_self x xs))]

/-- Greedy selection over the complete, sorted list of admissible positions at
or past the cursor agrees with the spec's recursive first-match selection. -/
theorem greedyTake_eq_greedyPositions (m old : Bits) (e : Nat) (ba : Bool)
    (hold : 0 < old.length) :
    ∀ (A : List Nat) (lo : Nat) (budget : Option Nat),
    List.Pairwise (· < ·) A →
    (∀ j ∈ A, admissible m old e ba j = true) →
    (∀ j, lo ≤ j → admissible m old e ba j = true → j ∈ A) →
    greedyTake old.length budget lo A = greedyPositions m old e ba budget lo := by
  intro A
  induction A with
  | nil =>
    intro lo budget _ _ hcomp
    cases hfn : findNext m old e ba lo with
    | none => rw [greedyPositions_none hold hfn]; rfl
    | some p =>
      obtain ⟨hp1, _, hp3, _⟩ := findNext_eq_some hfn
      exact absurd (hcomp p hp1 hp3) (List.not_mem_nil p)
  | cons x xs ih =>
    intro lo budget hpw hadm hcomp
    by_cases hb : budget = some 0
    · subst hb
      rw [greedyTake, if_pos rfl, greedyPositions_budget_zero]
    · by_cases hlo : lo ≤ x
      · have hax : admissible m old e ba x = true :=
          hadm x (List.mem_cons_self x xs)
        have hxe : x < e := by
          have := (admissible_bounds hax).1
          omega
        have hfn : findNext m old e ba lo = some x := by
          cases hfn : findNext m old e ba lo with
          | none => exact absurd (findNext_eq_none hfn x hlo hxe) (by simp [hax])
          | some p =>
            obtain ⟨hp1, hp2, hp3, hp4⟩ := findNext_eq_some hfn
            have hpmem : p ∈ x :: xs := hcomp p hp1 hp3
            have hpx : x ≤ p := by
              rcases List.mem_cons.mp hpmem with rfl | hptail
              · exact Nat.le_refl _
              · exact Nat.le_of_lt ((List.pairwise_cons.mp hpw).1 p hptail)
            have hxp : ¬ x < p := fun hlt => by
              have := hp4 x hlo hlt
              simp [hax] at this
            have : p = x := by omega
            rw [this]
        rw [greedyTake, if_neg hb, if_pos hlo]
        rw [greedyPositions_some hold hb hfn]
        congr 1
        apply ih
        · exact (List.pairwise_cons.mp hpw).2
        · exact fun j hj => hadm j (List.mem_cons_of_mem x hj)
        · intro j hj hja
          have hjmem : j ∈ x :: xs := hcomp j (by omega) hja
          rcases List.mem_cons.mp hjmem with rfl | hjt
          · omega
          · exact hjt
      · rw [greedyTake, if_neg hb, if_neg hlo]
        apply ih
        · exact (List.pairwise_cons.mp hpw).2
        · exact fun j hj => hadm j (List.mem_cons_of_mem x hj)
        · intro j hj hja
          have hjmem : j ∈ x :: xs := hcomp j hj hja
          rcases List.mem_cons.mp hjmem with rfl | hjt
          · omega
          · exact hjt

theorem mem_range'_iff {s n m : Nat} : m ∈ List.range' s n ↔ s ≤ m ∧ m < s + n := by
  rw [List.mem_range']
  constructor
  · rintro ⟨i, hi, rfl⟩; omega
  · intro ⟨h1, h2⟩; exact ⟨m - s, by omega, by omega⟩

theorem filter_map_pred {α β : Type} (f : α → β) (p : α → Bool) (q : β → Bool) :
    ∀ l : List α, (∀ x ∈ l, q (f x) = p x) →
    (l.filter p).map f = (l.map f).filter q := by
  intro l
  induction l with
  | nil => intro _; rfl
  | cons x xs ih =>
    intro h
    have hx := h x (List.mem_cons_self x xs)
    have hrest := fun y hy => h y (List.mem_cons_of_mem x hy)
    by_cases hp : p x = true
    · rw [List.filter_cons_of_pos hp, List.map_cons, List.map_cons,
        List.filter_cons_of_pos (by rw [hx]; exact hp), ih hrest]
    · rw [List.filter_cons_of_neg (by simpa using hp), List.map_cons,
        List.filter_cons_of_neg (by rw [hx]; simpa using hp), ih hrest]

theorem range'_shift (s n : Nat) :
    (List.range' 0 n).map (· + s) = List.range' s n := by
  rw [List.range'_eq_map_range s n, ← List.range_eq_range']
  apply List.map_congr_left
  intro x _
  omega

theorem slice_length {m : Bits} {s e : Nat} (he : e ≤ m.length) :
    ((m.drop s).take (e - s)).length = e - s := by
  simp only [List.length_take, List.length_drop]
  omega

theorem slice_segment {m : Bits} (s e i L : Nat) (hiL : i + L ≤ e - s) :
    (((m.drop s).take (e - s)).drop i).take L = (m.drop (s + i)).take L := by
  rw [List.drop_take, List.drop_drop, List.take_take]
  congr 1
  omega

/-- The match positions that `replace` obtains from `find_all` on the slice
`self[start:end]`, shifted back by `start`, are exactly the admissible match
positions of the snapshot inside the window. -/
theorem glue_positions (m old : Bits) (s e : Nat) (ba : Bool)
    (hold : 0 < old.length) (he : e ≤ m.length) (hba : ba = true → s % 8 = 0) :
    (findallRust ((m.drop s).take (e - s)) old 0
        ((m.drop s).take (e - s)).length ba).map (· + s)
      = (List.range' s (e - s)).filter (admissible m old e ba) := by
  have hlen : ((m.drop s).take (e - s)).length = e - s := slice_length he
  rw [findallRust, hlen, Nat.sub_zero]
  rw [filter_map_pred (· + s) _ (admissible m old e ba) _ ?pointwise]
  · rw [range'_shift]
  case pointwise =>
    intro i hi
    have his : i < e - s := by
      rw [mem_range'_iff] at hi
      omega
    apply Bool.eq_iff_iff.mpr
    simp only [admissible, matchesAt, hlen, Bool.and_eq_true, Bool.or_eq_true,
      Bool.not_eq_true', beq_iff_eq, decide_eq_true_eq]
    constructor
    · rintro ⟨⟨hal, hwin⟩, hmlen, hseg⟩
      have hwin' : i + old.length ≤ e - s := by omega
      refine ⟨⟨?_, hwin'⟩, by omega, ?_⟩
      · rcases hal with hba' | hmod
        · exact Or.inl hba'
        · cases ba with
          | false => exact Or.inl rfl
          | true =>
            have hs8 := hba rfl
            exact Or.inr (by omega)
      · rw [slice_segment s e i old.length hwin', Nat.add_comm s i]
        exact hseg
    · rintro ⟨⟨hal, hwin⟩, hslen, hseg⟩
      have hse : s ≤ e := by omega
      refine ⟨⟨?_, by omega⟩, by omega, ?_⟩
      · rcases hal with hba' | hmod
        · exact Or.inl hba'
        · cases ba with
          | false => exact Or.inl rfl
          | true =>
            have hs8 := hba rfl
            exact Or.inr (by omega)
      · rw [slice_segment s e i old.length (by omega)] at hseg
        rw [Nat.add_comm s i] at hseg
        exact hseg

theorem replaceScan_budget_zero (orig old newBits : Bits) (s e : Nat)
    (ba : Bool) (i : Nat) :
    replaceScan orig old newBits s e ba (some 0) i = orig.drop i := by
  rw [replaceScan]
  by_cases h0 : old.length = 0
  · rw [dif_pos h0]
  · rw [dif_neg h0, if_pos rfl]

theorem replaceScan_match {orig old newBits : Bits} {s e : Nat} {ba : Bool}
    {budget : Option Nat} {i : Nat} (hold : 0 < old.length)
    (hb : budget ≠ some 0) (hm : s ≤ i ∧ admissible orig old e ba i = true) :
    replaceScan orig old newBits s e ba budget i
      = newBits ++ replaceScan orig old newBits s e ba (budget.map (· - 1))
          (i + old.length) := by
  rw [replaceScan, dif_neg (by omega), if_neg hb, dif_pos hm]

theorem replaceScan_copy {orig old newBits : Bits} {s e : Nat} {ba : Bool}
    {budget : Option Nat} {i : Nat} (hold : 0 < old.length)
    (hb : budget ≠ some 0)
    (hm : ¬(s ≤ i ∧ admissible orig old e ba i = true)) (hi : i < orig.length) :
    replaceScan orig old newBits s e ba budget i
      = orig.get ⟨i, hi⟩ :: replaceScan orig old newBits s e ba budget (i + 1) := by
  rw [replaceScan, dif_neg (by omega), if_neg hb, dif_neg hm, dif_pos hi]

theorem replaceScan_stop {orig old newBits : Bits} {s e : Nat} {ba : Bool}
    {budget : Option Nat} {i : Nat} (hold : 0 < old.length)
    (hb : budget ≠ some 0)
    (hm : ¬(s ≤ i ∧ admissible orig old e ba i = true))
    (hi : ¬ i < orig.length) :
    replaceScan orig old newBits s e ba budget i = [] := by
  rw [replaceScan, dif_neg (by omega), if_neg hb, dif_neg hm, dif_neg hi]

/-- The result of substituting at the position list `P` (already selected,
ascending, non-overlapping), preserving the stretches of `orig` in between:
`orig[i:p0] ++ new ++ orig[p0+L:p1] ++ new ++ ... ++ orig[plast+L:]`. -/
def buildTail (orig newBits : Bits) (oldL : Nat) : Nat → List Nat → Bits
  | i, [] => orig.drop i
  | i, p :: rest =>
    (orig.drop i).take (p - i) ++ newBits ++ buildTail orig newBits oldL (p + oldL) rest

theorem drop_take_drop (l : Bits) {i t : Nat} (h : i ≤ t) :
    (l.drop i).take (t - i) ++ l.drop t = l.drop i := by
  have hdd : l.drop t = (l.drop i).drop (t - i) := by
    rw [List.drop_drop]
    congr 1
    omega
  rw [hdd, List.take_append_drop]

theorem drop_cons (l : Bits) {i : Nat} (hi : i < l.length) :
    l.drop i = l.get ⟨i, hi⟩ :: l.drop (i + 1) := by
  rw [List.drop_eq_getElem_cons hi]
  rfl

/-- Scanning a stretch with no admissible in-window occurrence copies that
stretch of the snapshot verbatim. -/
theorem replaceScan_segment (orig old newBits : Bits) (s e : Nat) (ba : Bool)
    (hold : 0 < old.length) :
    ∀ (d i t : Nat) (budget : Option Nat), t - i ≤ d → i ≤ t → t ≤ orig.length →
    (∀ j, i ≤ j → j < t → ¬(s ≤ j ∧ admissible orig old e ba j = true)) →
    replaceScan orig old newBits s e ba budget i
      = (orig.drop i).take (t - i) ++ replaceScan orig old newBits s e ba budget t := by
  intro d
  induction d with
  | zero =>
    intro i t budget hd hit _ _
    have : i = t := by omega
    subst this
    simp
  | succ d ih =>
    intro i t budget hd hit htlen hnone
    by_cases heq : i = t
    · subst heq; simp
    · have hit' : i < t := by omega
      by_cases hb : budget = some 0
      · subst hb
        rw [replaceScan_budget_zero, replaceScan_budget_zero]
        rw [drop_take_drop orig hit]
      · have hi : i < orig.length := by omega
        rw [replaceScan_copy hold hb (hnone i (Nat.le_refl i) hit') hi]
        rw [ih (i + 1) t budget (by omega) (by omega) htlen
          (fun j hj1 hj2 => hnone j (by omega) hj2)]
        rw [← List.cons_append]
        congr 1
        have hts : t - i = (t - (i + 1)) + 1 := by omega
        rw [hts, drop_cons orig hi, List.take_succ_cons]

/-- Scanning with no admissible in-window occurrence anywhere ahead copies the
rest of the snapshot. -/
theorem replaceScan_rest (orig old newBits : Bits) (s e : Nat) (ba : Bool)
    (hold : 0 < old.length) :
    ∀ (d i : Nat) (budget : Option Nat), orig.length - i ≤ d →
    (∀ j, i ≤ j → ¬(s ≤ j ∧ admissible orig old e ba j = true)) →
    replaceScan orig old newBits s e ba budget i = orig.drop i := by
  intro d
  induction d with
  | zero =>
    intro i budget hd hnone
    by_cases hb : budget = some 0
    · subst hb; rw [replaceScan_budget_zero]
    · rw [replaceScan_stop hold hb (hnone i (Nat.le_refl i)) (by omega),
        List.drop_eq_nil_of_le (by omega)]
  | succ d ih =>
    intro i budget hd hnone
    by_cases hb : budget = some 0
    · subst hb; rw [replaceScan_budget_zero]
    · by_cases hi : i < orig.length
      · rw [replaceScan_copy hold hb (hnone i (Nat.le_refl i)) hi]
        rw [ih (i + 1) budget (by omega) (fun j hj => hnone j (by omega))]
        rw [drop_cons orig hi]
      · rw [replaceScan_stop hold hb (hnone i (Nat.le_refl i)) hi,
          List.drop_eq_nil_of_le (by omega)]

/-- From any cursor at or past the window start, the scanner produces exactly
the substitution at the greedy first-match positions. -/
theorem replaceScan_eq_buildTail (orig old newBits : Bits) (s e : Nat)
    (ba : Bool) (hold : 0 < old.length) (he : e ≤ orig.length) :
    ∀ (k i : Nat) (budget : Option Nat), orig.length - i ≤ k → s ≤ i →
    replaceScan orig old newBits s e ba budget i
      = buildTail orig newBits old.length i
          (greedyPositions orig old e ba budget i) := by
  intro k
  induction k with
  | zero =>
    intro i budget hk hsi
    by_cases hb : budget = some 0
    · subst hb
      rw [replaceScan_budget_zero, greedyPositions_budget_zero]
      rfl
    · cases hfn : findNext orig old e ba i with
      | none =>
        rw [greedyPositions_none hold hfn]
        apply replaceScan_rest orig old newBits s e ba hold (orig.length - i) i
          budget (Nat.le_refl _)
        intro j hj ⟨_, hadj⟩
        have hb2 := (admissible_bounds hadj).1
        have := findNext_eq_none hfn j hj (by omega)
        simp [hadj] at this
      | some p =>
        obtain ⟨hp1, hp2, hp3, _⟩ := findNext_eq_some hfn
        have := (admissible_bounds hp3).1
        omega
  | succ k ih =>
    intro i budget hk hsi
    by_cases hb : budget = some 0
    · subst hb
      rw [replaceScan_budget_zero, greedyPositions_budget_zero]
      rfl
    · cases hfn : findNext orig old e ba i with
      | none =>
        rw [greedyPositions_none hold hfn]
        apply replaceScan_rest orig old newBits s e ba hold (orig.length - i) i
          budget (Nat.le_refl _)
        intro j hj ⟨_, hadj⟩
        have hb2 := (admissible_bounds hadj).1
        by_cases hje : j < e
        · have := findNext_eq_none hfn j hj hje
          simp [hadj] at this
        · omega
      | some p =>
        obtain ⟨hp1, hp2, hp3, hp4⟩ := findNext_eq_some hfn
        rw [greedyPositions_some hold hb hfn]
        rw [replaceScan_segment orig old newBits s e ba hold (p - i) i p budget
          (Nat.le_refl _) hp1 (by omega) ?noadm]
        · rw [replaceScan_match hold hb ⟨by omega, hp3⟩]
          rw [ih (p + old.length) (budget.map (· - 1)) (by omega) (by omega)]
          rw [buildTail, List.append_assoc]
        case noadm =>
          intro j hj1 hj2 ⟨_, hadj⟩
          have := hp4 j hj1 hj2
          simp [hadj] at this

theorem buildReplGo_eq_buildTail (orig newBits : Bits) (oldL : Nat) :
    ∀ (P : List Nat) (prev : Nat),
    buildReplGo orig newBits oldL prev P
      = newBits ++ buildTail orig newBits oldL (prev + oldL) P := by
  intro P
  induction P with
  | nil =>
    intro prev
    rw [buildReplGo, buildTail]
    congr 1
    rw [getslice]
    have hlen : orig.length - prev - oldL = (orig.drop (prev + oldL)).length := by
      rw [List.length_drop]
      omega
    rw [hlen, List.take_length]
  | cons q rest ih =>
    intro prev
    rw [buildReplGo, buildTail, ih q, getslice]
    have hsub : q - prev - oldL = q - (prev + oldL) := by omega
    rw [hsub]
    simp only [List.append_assoc]

theorem buildRepl_cons (orig newBits : Bits) (oldL : Nat) (p : Nat)
    (rest : List Nat) :
    buildRepl orig newBits oldL (p :: rest)
      = orig.take p ++ newBits ++ buildTail orig newBits oldL (p + oldL) rest := by
  rw [buildRepl, buildReplGo_eq_buildTail, getslice, List.drop_zero,
    List.append_assoc]

theorem take_add_segment (l : Bits) {a b : Nat} (h : a ≤ b) :
    l.take a ++ (l.drop a).take (b - a) = l.take b := by
  have hb : b = a + (b - a) := by omega
  rw [hb, List.take_add]
  congr 2
  omega

theorem le_alignUp (s : Nat) (ba : Bool) : s ≤ alignUp s ba := by
  cases ba <;> simp [alignUp]

theorem alignUp_le_of_aligned {s j : Nat} (h8 : j % 8 = 0) (hs : s ≤ j) :
    alignUp s true ≤ j := by
  simp only [alignUp, if_pos]
  omega

/-- The spec-side scanner decomposes as: untouched prefix up to the (possibly
alignment-adjusted) window start, then substitution at the greedy positions. -/
theorem replaceSpec_decomp (m old newBits : Bits) (s e : Nat) (ba : Bool)
    (budget : Option Nat) (hold : 0 < old.length) (he : e ≤ m.length)
    (hse : s ≤ e) :
    replaceSpec m old newBits s e budget ba
      = m.take (alignUp s ba) ++
          buildTail m newBits old.length (alignUp s ba)
            (greedyPositions m old e ba budget (alignUp s ba)) := by
  by_cases hlen : alignUp s ba ≤ m.length
  · rw [replaceSpec]
    rw [replaceScan_segment m old newBits s e ba hold (alignUp s ba) 0
      (alignUp s ba) budget (by omega) (Nat.zero_le _) hlen ?pref]
    · rw [List.drop_zero, Nat.sub_zero]
      congr 1
      exact replaceScan_eq_buildTail m old newBits s e ba hold he
        (m.length - alignUp s ba) (alignUp s ba) budget (Nat.le_refl _)
        (le_alignUp s ba)
    case pref =>
      intro j _ hjlt ⟨hsj, hadj⟩
      cases ba with
      | false => simp only [alignUp, if_neg (Bool.false_ne_true)] at hjlt; omega
      | true =>
        have h8 := admissible_aligned hadj
        have := alignUp_le_of_aligned h8 hsj
        omega
  · have hba : ba = true := by
      cases ba with
      | false => simp only [alignUp, if_neg (Bool.false_ne_true)] at hlen; omega
      | true => rfl
    subst hba
    rw [replaceSpec]
    rw [replaceScan_rest m old newBits s e true hold m.length 0 budget
      (by omega) ?noad]
    · have hg : greedyPositions m old e true budget (alignUp s true) = [] := by
        cases hfn : findNext m old e true (alignUp s true) with
        | none => exact greedyPositions_none hold hfn
        | some p =>
          obtain ⟨hp1, hp2, _, _⟩ := findNext_eq_some hfn
          omega
      rw [hg, List.drop_zero]
      have hbt : buildTail m newBits old.length (alignUp s true) [] =
          m.drop (alignUp s true) := rfl
      rw [hbt, List.take_of_length_le (by omega),
        List.drop_eq_nil_of_le (by omega), List.append_nil]
    case noad =>
      intro j _ ⟨hsj, hadj⟩
      have h8 := admissible_aligned hadj
      have h1 := alignUp_le_of_aligned h8 hsj
      have h2 := (admissible_bounds hadj).1
      omega

theorem alignUp_mod8 (s : Nat) : alignUp s true % 8 = 0 := by
  simp only [alignUp, if_pos]
  omega

theorem greedyPositions_head_ge {m old : Bits} {e : Nat} {ba : Bool}
    {budget : Option Nat} {i p : Nat} {rest : List Nat} (hold : 0 < old.length)
    (h : greedyPositions m old e ba budget i = p :: rest) : i ≤ p := by
  by_cases hb : budget = some 0
  · subst hb
    rw [greedyPositions_budget_zero] at h
    cases h
  · cases hfn : findNext m old e ba i with
    | none =>
      rw [greedyPositions_none hold hfn] at h
      cases h
    | some q =>
      rw [greedyPositions_some hold hb hfn] at h
      obtain ⟨h1, _, _, _⟩ := findNext_eq_some hfn
      injection h with hqp _
      omega

theorem validateSlice_natCast {len s e : Nat} (h1 : s ≤ e) (h2 : e ≤ len) :
    validateSlice len (some (s : Int)) (some (e : Int)) = .ok (s, e) := by
  rw [validateSlice]
  rw [if_neg (by omega : ¬ ((s : Int) < 0)), if_neg (by omega : ¬ ((e : Int) < 0))]
  rw [if_pos ⟨by omega, by omega, by omega⟩]
  simp

theorem validateSlice_none (len : Nat) :
    validateSlice len none none = .ok (0, len) := by
  rw [validateSlice]
  rw [if_pos ⟨by omega, by omega, by omega⟩]
  simp

theorem find_all_ok (self bs : Bits) (ba opts : Bool) (hbs : 0 < bs.length) :
    find_all self bs none none none (some ba) opts
      = .ok (findallRust self bs 0 self.length ba) := by
  rw [find_all]
  simp only [Option.getD_none]
  rw [if_neg (by omega : ¬ ((0 : Int) < 0))]
  rw [validateSlice_none]
  simp only [bind, Except.bind]
  rw [if_neg (by omega)]
  rfl

/-- `replace` computes exactly the spec-side scanner result: the greedy
left-to-right non-overlapping substitution, truncated at `count`, over the
frozen snapshot. -/
theorem replace_eq_replaceSpec (m old nw : Bits) (s e : Nat) (count : Option Int)
    (ba opts : Bool) (hold : 0 < old.length) (hse : s ≤ e) (hel : e ≤ m.length)
    (hcount : count = none ∨ ∃ c : Nat, 0 < c ∧ count = some (c : Int)) :
    replace m old nw (some (s : Int)) (some (e : Int)) count (some ba) opts
      = .ok (replaceSpec m old nw s e (count.map Int.toNat) ba) := by
  have hc0 : ¬ (count = some 0) := by
    rcases hcount with rfl | ⟨c, hc, rfl⟩
    · simp
    · intro h
      injection h with h
      omega
  rw [replace, if_neg hc0, if_neg (by omega : ¬ old.length = 0)]
  rw [validateSlice_natCast hse hel]
  simp only [bind, Except.bind, Option.getD_some]
  rw [find_all_ok _ old ba opts hold]
  dsimp only
  set sAl := alignUp s ba with hsAl
  set A := (List.range' sAl (e - sAl)).filter (admissible m old e ba) with hA
  have hball : ba = true → sAl % 8 = 0 := by
    intro hba
    rw [hsAl, hba]
    exact alignUp_mod8 s
  have hglue : (findallRust ((m.drop sAl).take (e - sAl)) old 0
      ((m.drop sAl).take (e - sAl)).length ba).map (· + sAl) = A :=
    glue_positions m old sAl e ba hold hel hball
  have hsort : List.Pairwise (· < ·) A :=
    (List.pairwise_lt_range' sAl (e - sAl)).filter _
  have hadmA : ∀ j ∈ A, admissible m old e ba j = true :=
    fun j hj => List.of_mem_filter hj
  have hge : ∀ j ∈ A, sAl ≤ j :=
    fun j hj => (mem_range'_iff.mp (List.mem_of_mem_filter hj)).1
  have hcomp : ∀ j, sAl ≤ j → admissible m old e ba j = true → j ∈ A := by
    intro j hj hadj
    apply List.mem_filter.mpr
    refine ⟨mem_range'_iff.mpr ⟨hj, ?_⟩, hadj⟩
    have := (admissible_bounds hadj).1
    omega
  have hsel : selectLoop old.length count
      ((findallRust ((m.drop sAl).take (e - sAl)) old 0
        ((m.drop sAl).take (e - sAl)).length ba).map (· + sAl)) []
      = greedyPositions m old e ba (count.map Int.toNat) sAl := by
    rw [hglue, selectLoop_eq_greedyTake old.length count hcount A,
      greedyTake_lo_congr old.length (count.map Int.toNat) A 0 sAl
        (fun j _ => Nat.zero_le j) hge]
    exact greedyTake_eq_greedyPositions m old e ba hold A sAl
      (count.map Int.toNat) hsort hadmA hcomp
  rw [hsel]
  rcases hP : greedyPositions m old e ba (count.map Int.toNat) sAl
    with _ | ⟨p, rest⟩
  · simp only [List.isEmpty_nil, if_true]
    rw [replaceSpec_decomp m old nw s e ba _ hold hel hse, ← hsAl, hP]
    have hbt : buildTail m nw old.length sAl [] = m.drop sAl := rfl
    rw [hbt, List.take_append_drop]
    rfl
  · simp only [List.isEmpty_cons, Bool.false_eq_true, if_false]
    rw [replaceSpec_decomp m old nw s e ba _ hold hel hse, ← hsAl, hP]
    rw [buildRepl_cons, buildTail]
    have hplo : sAl ≤ p := greedyPositions_head_ge hold hP
    rw [← take_add_segment m hplo]
    simp only [List.append_assoc]
    rfl

theorem replace_count_zero (m old nw : Bits) (start stop : Option Int)
    (bal : Option Bool) (opts : Bool) :
    replace m old nw start stop (some 0) bal opts = .ok m := by
  rw [replace, if_pos rfl]
  rfl

/-- Modelled from the spec: cloning a sequence produces an independent
sequence with the same bit content; in the value model it is the content
itself. -/
def cloneBits (b : Bits) : Bits := b

/-- C1: `replace(old, new, start, end, count, byte_aligned)` substitutes up to
`count` non-overlapping occurrences of a non-empty `old` taken left to right,
with both the match positions and the preserved in-between segments coming
from the frozen pre-call snapshot (the spec-side scanner `replaceSpec` over
the unmodified receiver value); `count = None` is unlimited, `count = 0`
leaves the receiver unchanged, and passing the receiver itself as `new` gives
the same result as passing a separately-cloned copy of its pre-call value. -/
theorem C1_replace_frozen_snapshot (m old nw : Bits) (s e : Nat)
    (count : Option Int) (ba opts : Bool)
    (hold : 0 < old.length) (hse : s ≤ e) (hel : e ≤ m.length)
    (hcount : count = none ∨ ∃ c : Nat, 0 < c ∧ count = some (c : Int)) :
    replace m old nw (some (s : Int)) (some (e : Int)) count (some ba) opts
        = .ok (replaceSpec m old nw s e (count.map Int.toNat) ba)
      ∧ replace m old nw (some (s : Int)) (some (e : Int)) (some 0) (some ba) opts
        = .ok m
      ∧ replace m old m (some (s : Int)) (some (e : Int)) count (some ba) opts
        = replace m old (cloneBits m) (some (s : Int)) (some (e : Int)) count
            (some ba) opts :=
  ⟨replace_eq_replaceSpec m old nw s e count ba opts hold hse hel hcount,
   replace_count_zero m old nw (some (s : Int)) (some (e : Int)) (some ba) opts,
   rfl⟩

theorem C1_replace_frozen_snapshot_witness :
    replace [true, false, false, true, true] [true] [true, true, true, true]
        (some ((0 : Nat) : Int)) (some ((5 : Nat) : Int)) none (some false) false
      = .ok (replaceSpec [true, false, false, true, true] [true]
          [true, true, true, true] 0 5 none false)
    ∧ replaceSpec [true, false, false, true, true] [true]
        [true, true, true, true] 0 5 none false
      = [true, true, true, true, false, false, true, true, true, true, true,
          true, true, true] := by
  constructor
  · exact (C1_replace_frozen_snapshot [true, false, false, true, true] [true]
      [true, true, true, true] 0 5 none false false (by decide) (by decide)
      (by decide) (Or.inl rfl)).1
  · simp [replaceSpec, replaceScan, admissible, matchesAt, findNext,
      greedyPositions]

/-- C2 (behaviour at the failing input): `rfind_all` forwards its arguments
to `find_all` in the wrong positional order (`count`, `start`, `end` land in
`find_all`'s `start`, `end`, `count` slots), so on `0b111` with pattern `0b1`
and `start = 1` it searches the window `[0, 1)` and yields `[0]`, whereas the
reverse of `find_all` over the same arguments — what the docstring and spec
promise — is `[2, 1]`. -/
theorem C2_rfind_all_scrambles_arguments :
    rfind_all [true, true, true] [true] (some 1) none none (some false) false
      = .ok [0]
    ∧ (find_all [true, true, true] [true] (some 1) none none (some false)
        false).map List.reverse = .ok [2, 1]
    ∧ ([0] : List Nat) ≠ [2, 1] := by
  refine ⟨rfl, rfl, by simp⟩

theorem validateSlice_cases (len : Nat) (a b : Option Int) :
    (∃ se, validateSlice len a b = .ok se)
    ∨ (∃ msg, validateSlice len a b = .error (.valueError msg)) := by
  rw [validateSlice.eq_def]
  dsimp only
  repeat' split
  any_goals exact Or.inl ⟨_, rfl⟩
  all_goals exact Or.inr ⟨_, rfl⟩

theorem validateSlice_error_shape {len : Nat} {a b : Option Int} {pe : PyErr}
    (h : validateSlice len a b = .error pe) : ∃ msg, pe = .valueError msg := by
  rcases validateSlice_cases len a b with ⟨se, hok⟩ | ⟨msg, herr⟩
  · rw [hok] at h
    cases h
  · rw [herr] at h
    injection h with h
    exact ⟨msg, h.symm⟩

/-- C5 counterexample: `replace` with an empty pattern and `count = 0` returns
the receiver unchanged instead of raising a value error, because the
`count == 0` early return precedes the empty-pattern check. -/
theorem C5_counterexample_empty_pattern_count_zero :
    replace [true] [] [true] none none (some 0) none false = .ok [true] := by
  rfl

/-- C5 (amended): `find`, `rfind` and `find_all` raise a value error for an
empty pattern under every choice of window, count and alignment, and so does
`replace` except when `count = 0`, in which case it returns the receiver
unchanged without examining the pattern. -/
theorem C5_empty_pattern_value_error (s nw : Bits) (start stop cnt : Option Int)
    (bal : Option Bool) (opts : Bool) :
    (∃ msg, find s [] start stop bal opts = .error (.valueError msg))
    ∧ (∃ msg, rfind s [] start stop bal opts = .error (.valueError msg))
    ∧ (∃ msg, find_all s [] start stop cnt bal opts = .error (.valueError msg))
    ∧ (cnt ≠ some 0 →
        ∃ msg, replace s [] nw start stop cnt bal opts
          = .error (.valueError msg))
    ∧ replace s [] nw start stop (some 0) bal opts = .ok s := by
  refine ⟨?_, ?_, ?_, ?_, replace_count_zero s [] nw start stop bal opts⟩
  · rw [find]
    simp only [bind, Except.bind]
    cases h : validateSlice s.length start stop with
    | error pe =>
      obtain ⟨msg, rfl⟩ := validateSlice_error_shape h
      exact ⟨msg, rfl⟩
    | ok se =>
      obtain ⟨a, b⟩ := se
      exact ⟨_, rfl⟩
  · rw [rfind]
    simp only [bind, Except.bind]
    cases h : validateSlice s.length start stop with
    | error pe =>
      obtain ⟨msg, rfl⟩ := validateSlice_error_shape h
      exact ⟨msg, rfl⟩
    | ok se =>
      obtain ⟨a, b⟩ := se
      exact ⟨_, rfl⟩
  · rw [find_all]
    by_cases hcnt : (cnt.getD 0) < 0
    · rw [if_pos hcnt]
      exact ⟨_, rfl⟩
    · rw [if_neg hcnt]
      simp only [bind, Except.bind]
      cases h : validateSlice s.length start stop with
      | error pe =>
        obtain ⟨msg, rfl⟩ := validateSlice_error_shape h
        exact ⟨msg, rfl⟩
      | ok se =>
        obtain ⟨a, b⟩ := se
        exact ⟨_, rfl⟩
  · intro hcnt
    rw [replace, if_neg hcnt]
    exact ⟨_, rfl⟩

theorem C5_empty_pattern_value_error_witness :
    (∃ msg, replace [true] [] [false] none none none none false
      = .error (.valueError msg))
    ∧ replace [true] [] [false] none none (some 0) none false = .ok [true] :=
  ⟨(C5_empty_pattern_value_error [true] [false] none none none none
      false).2.2.2.1 (by simp),
   (C5_empty_pattern_value_error [true] [false] none none (some 0) none
      false).2.2.2.2⟩

theorem find_opts (s bs : Bits) (start stop : Option Int) (b o o2 : Bool) :
    find s bs start stop (some b) o = find s bs start stop (some b) o2
    ∧ find s bs start stop none o = find s bs start stop (some o) o2 := by
  constructor <;>
    (rw [find, find]; simp only [Option.getD_some, Option.getD_none])

theorem rfind_opts (s bs : Bits) (start stop : Option Int) (b o o2 : Bool) :
    rfind s bs start stop (some b) o = rfind s bs start stop (some b) o2
    ∧ rfind s bs start stop none o = rfind s bs start stop (some o) o2 := by
  constructor <;>
    (rw [rfind, rfind]; simp only [Option.getD_some, Option.getD_none])

theorem find_all_opts (s bs : Bits) (start stop cnt : Option Int)
    (b o o2 : Bool) :
    find_all s bs start stop cnt (some b) o
      = find_all s bs start stop cnt (some b) o2
    ∧ find_all s bs start stop cnt none o
      = find_all s bs start stop cnt (some o) o2 := by
  constructor <;>
    (rw [find_all, find_all]; simp only [Option.getD_some, Option.getD_none])

theorem replace_opts (m old nw : Bits) (start stop cnt : Option Int)
    (b o o2 : Bool) :
    replace m old nw start stop cnt (some b) o
      = replace m old nw start stop cnt (some b) o2
    ∧ replace m old nw start stop cnt none o
      = replace m old nw start stop cnt (some o) o2 := by
  have hfa : ∀ (sl bs2 : Bits) (st sp cn : Option Int) (bb : Bool),
      find_all sl bs2 st sp cn (some bb) o
        = find_all sl bs2 st sp cn (some bb) o2 :=
    fun sl bs2 st sp cn bb => (find_all_opts sl bs2 st sp cn bb o o2).1
  constructor <;>
    (rw [replace, replace];
     simp only [Option.getD_some, Option.getD_none, hfa])

/-- C8: when `byte_aligned` is omitted, `find`, `rfind`, `find_all` and
`replace` read the alignment from the global options flag at the point of the
call (passing the flag's current value explicitly gives the same result), and
when `byte_aligned` is passed explicitly the global flag has no effect. -/
theorem C8_byte_aligned_default (s bs nw : Bits) (start stop cnt : Option Int)
    (b o o2 : Bool) :
    (find s bs start stop (some b) o = find s bs start stop (some b) o2
      ∧ find s bs start stop none o = find s bs start stop (some o) o2)
    ∧ (rfind s bs start stop (some b) o = rfind s bs start stop (some b) o2
      ∧ rfind s bs start stop none o = rfind s bs start stop (some o) o2)
    ∧ (find_all s bs start stop cnt (some b) o
        = find_all s bs start stop cnt (some b) o2
      ∧ find_all s bs start stop cnt none o
        = find_all s bs start stop cnt (some o) o2)
    ∧ (replace s bs nw start stop cnt (some b) o
        = replace s bs nw start stop cnt (some b) o2
      ∧ replace s bs nw start stop cnt none o
        = replace s bs nw start stop cnt (some o) o2) :=
  ⟨find_opts s bs start stop b o o2, rfind_opts s bs start stop b o o2,
   find_all_opts s bs start stop cnt b o o2,
   replace_opts s bs nw start stop cnt b o o2⟩

/-! ### Dtype model and `unpack` routing

Only the aspects of the dtype layer that the `unpack` glue inspects are
modelled: whether the dtype is a single dtype or an array, the total bit
length when known, the element bit length, and the item count. -/

/-- Modelled from the spec: the shape of an evaluated dtype as seen by the
`unpack` glue — a single dtype with an optional known bit length, or a
`DtypeArray` with an optional known element bit length and an optional fixed
item count. -/
inductive DtypeModel where
  | single (bitLength : Option Nat)
  | array (elemBitLength : Option Nat) (items : Option Nat)
deriving DecidableEq, Repr

/-- Modelled from the spec: `dtype.bit_length` — known for a single dtype with
a length and for an array with known element length and fixed item count,
unknown otherwise. -/
def DtypeModel.bit_length : DtypeModel → Option Nat
  | .single l => l
  | .array (some el) (some k) => some (el * k)
  | .array _ _ => none

/-- Modelled from the spec: `dtype._unpack_no_checks` decodes exactly the bits
handed to it; the decoded value is abstracted as the consumed bit range. -/
def unpackNoChecks (s : Bits) : Bits := s

/-- Translation of the `start is None and end is None` path of
`BaseBitsMethods.unpack`: a dtype with known bit length consumes the whole
value when the lengths agree, consumes only the leading portion when shorter,
and errors when longer; an unbounded array with known element length consumes
whole repetitions when the element is strictly shorter than the value and
errors otherwise; anything else consumes the whole value. -/
def unpack (self : Bits) (dtype : DtypeModel) : Except PyErr Bits :=
  match dtype.bit_length with
  | some L =>
    if L = self.length then .ok (unpackNoChecks self)
    else if L < self.length then .ok (unpackNoChecks (self.take L))
    else .error (.valueError "Not enough bits to unpack the requested Dtype.")
  | none =>
    match dtype with
    | .array (some el) none =>
      if el < self.length then
        .ok (unpackNoChecks (self.take (self.length - self.length % el)))
      else .error (.valueError "Not enough bits to unpack the requested Dtype.")
    | _ => .ok (unpackNoChecks self)

/-- C4: a single dtype with known bit length `L` unpacks only the leading `L`
bits when `L` is at most the available length, and raises a value error when
`L` exceeds it. -/
theorem C4_unpack_single_leading (s : Bits) (L : Nat) :
    (L ≤ s.length → unpack s (.single (some L)) = .ok (s.take L))
    ∧ (s.length < L →
        ∃ msg, unpack s (.single (some L)) = .error (.valueError msg)) := by
  constructor
  · intro hL
    by_cases heq : L = s.length
    · subst heq
      simp [unpack, DtypeModel.bit_length, unpackNoChecks, List.take_length]
    · have hlt : L < s.length := by omega
      simp [unpack, DtypeModel.bit_length, unpackNoChecks, heq, hlt]
  · intro hL
    have h1 : ¬ (L = s.length) := by omega
    have h2 : ¬ (L < s.length) := by omega
    simp only [unpack, DtypeModel.bit_length, if_neg h1, if_neg h2]
    exact ⟨_, rfl⟩

theorem C4_unpack_single_leading_witness :
    unpack [true, false, true] (.single (some 2)) = .ok [true, false]
    ∧ (∃ msg, unpack [true] (.single (some 2))
        = .error (.valueError msg)) := by
  constructor
  · have h := (C4_unpack_single_leading [true, false, true] 2).1 (by decide)
    simpa using h
  · exact (C4_unpack_single_leading [true] 2).2 (by decide)

/-- C3 (behaviour at the boundary): for an unbounded `DtypeArray` whose
element bit length `L` equals the available length, the code raises a value
error even though exactly one whole repetition fits, because the guard uses a
strict `<` comparison; when `L` is strictly smaller, whole repetitions are
consumed and the `len mod L` remainder bits are left unconsumed as the claim
states. -/
theorem C3_unpack_array_boundary :
    (∃ msg, unpack (List.replicate 8 false) (.array (some 8) none)
      = .error (.valueError msg))
    ∧ unpack (List.replicate 12 false) (.array (some 8) none)
      = .ok (List.replicate 8 false) := by
  constructor
  · exact ⟨_, rfl⟩
  · rfl

/-! ### Hashing -/

/-- Modelled from the spec and the comment in `__hash__`: `to_bytes` exports
the byte content, zero-padding the final partial byte. -/
def to_bytes (s : Bits) : Bits :=
  s ++ List.replicate ((8 - s.length % 8) % 8) false

/-- Translation of `BitsMethods.__hash__`, with Python's opaque `hash` of the
final tuple abstracted away: the pair that is hashed — full byte content plus
length for sequences of at most 2000 bits, and the byte content of the first
800 bits joined with the last 800 bits plus length for longer sequences. -/
def hashInput (s : Bits) : Bits × Nat :=
  if s.length ≤ 2000 then (to_bytes s, s.length)
  else (to_bytes (getslice s 0 800 ++ getslice s (s.length - 800) 800),
    s.length)

/-- C6: equal values hash equally; a sequence of at most 2000 bits is hashed
from its full byte content plus its length, and a longer sequence is hashed
from its first 800 bits, its last 800 bits and its length (so two long
sequences agreeing there hash equally even if they differ in between). -/
theorem C6_hash_consistency (a b : Bits) :
    (a = b → hashInput a = hashInput b)
    ∧ (a.length ≤ 2000 → hashInput a = (to_bytes a, a.length))
    ∧ (2000 < a.length → 2000 < b.length → a.length = b.length →
        a.take 800 = b.take 800 →
        a.drop (a.length - 800) = b.drop (b.length - 800) →
        hashInput a = hashInput b) := by
  refine ⟨fun h => by rw [h], fun h => by rw [hashInput, if_pos h], ?_⟩
  intro ha hb hlen htake hdrop
  rw [hashInput, if_neg (by omega), hashInput, if_neg (by omega)]
  have hda : getslice a (a.length - 800) 800 = a.drop (a.length - 800) := by
    rw [getslice]
    apply List.take_of_length_le
    rw [List.length_drop]
    omega
  have hdb : getslice b (b.length - 800) 800 = b.drop (b.length - 800) := by
    rw [getslice]
    apply List.take_of_length_le
    rw [List.length_drop]
    omega
  have hta : getslice a 0 800 = a.take 800 := by
    rw [getslice, List.drop_zero]
  have htb : getslice b 0 800 = b.take 800 := by
    rw [getslice, List.drop_zero]
  rw [hda, hdb, hta, htb, htake, hdrop, hlen]

theorem C6_hash_consistency_witness :
    hashInput [true, false, true] = (to_bytes [true, false, true], 3)
    ∧ hashInput
        (List.replicate 1200 false ++ true :: List.replicate 1200 false)
      = hashInput (List.replicate 2401 false) := by
  constructor
  · exact (C6_hash_consistency [true, false, true] []).2.1 (by decide)
  · apply (C6_hash_consistency
      (List.replicate 1200 false ++ true :: List.replicate 1200 false)
      (List.replicate 2401 false)).2.2
    · simp only [List.length_append, List.length_replicate, List.length_cons]
      omega
    · simp only [List.length_replicate]
      omega
    · simp only [List.length_append, List.length_replicate, List.length_cons]
    · rw [List.take_append_of_le_length (by
        simp only [List.length_replicate]; omega)]
      rw [List.take_replicate, List.take_replicate]
      congr 1
    · have hL : (List.replicate 1200 false ++ true ::
          List.replicate 1200 false).drop 1601
          = List.replicate 800 (false : Bool) := by
        have h4 : (1601 : Nat)
            = (List.replicate 1200 (false : Bool)).length + 401 := by
          simp only [List.length_replicate]
        rw [h4, List.drop_append]
        have h5 : (401 : Nat) = 400 + 1 := by norm_num
        rw [h5, List.drop_succ_cons, List.drop_replicate]
      have hR : (List.replicate 2401 (false : Bool)).drop 1601
          = List.replicate 800 (false : Bool) := by
        rw [List.drop_replicate]
      have hlenL : (List.replicate 1200 false ++ true ::
          List.replicate 1200 false).length = 2401 := by
        simp only [List.length_append, List.length_replicate, List.length_cons]
      have hlenR : (List.replicate 2401 (false : Bool)).length = 2401 := by
        simp only [List.length_replicate]
      rw [hlenL, hlenR]
      have h6 : (2401 : Nat) - 800 = 1601 := by norm_num
      rw [h6, hL, hR]

/-! ### Method tables and attribute lookup

`_patch_classes` copies the callables of `BaseBitsMethods` onto both classes,
those of `BitsMethods` onto `Tibs` only, and those of `MutableBitsMethods`
onto `Mutibs` only; `Mutibs.__getattr__` turns a failed lookup into an
attribute error, with a hint when the name exists as a public method of
`Tibs`. -/

/-- The callables of `BaseBitsMethods`, patched onto both classes. -/
def baseBitsMethodNames : List String :=
  ["find", "rfind", "unpack", "__contains__"]

/-- The callables of `BitsMethods`, patched onto `Tibs` only. -/
def bitsMethodNames : List String :=
  ["from_dtype", "rfind_all", "find_all", "__hash__", "__getattr__",
   "__copy__"]

/-- The callables of `MutableBitsMethods`, patched onto `Mutibs` only. -/
def mutableBitsMethodNames : List String :=
  ["from_dtype", "__getattr__", "replace"]

/-- The attributes of `Tibs` after `_patch_classes`. -/
def tibsAttrs : List String := baseBitsMethodNames ++ bitsMethodNames

/-- The attributes of `Mutibs` after `_patch_classes`. -/
def mutibsAttrs : List String := baseBitsMethodNames ++ mutableBitsMethodNames

/-- Translation of `MutableBitsMethods.__getattr__`: a helpful message when
the missing name is a public method of `Tibs`, a plain one otherwise. -/
def mutibsGetattrMsg (name : String) : String :=
  if name ∈ tibsAttrs ∧ ¬ name.startsWith "_" then
    "no attribute; did you mean to use the Tibs class?"
  else
    "no attribute"

/-- Attribute lookup on a `Mutibs` instance: methods present in its table
resolve; anything else goes through `__getattr__`, which raises an attribute
error. -/
def mutibsLookupAttr (name : String) : Except PyErr Unit :=
  if name ∈ mutibsAttrs then .ok ()
  else .error (.attributeError (mutibsGetattrMsg name))

/-- C7: after class patching, `find_all` and `rfind_all` are attributes of the
immutable `Tibs` class only; looking either up on a `Mutibs` raises an
attribute error instead of performing a search. -/
theorem C7_find_all_immutable_only :
    ("find_all" ∈ tibsAttrs ∧ "rfind_all" ∈ tibsAttrs)
    ∧ (∃ msg, mutibsLookupAttr "find_all" = .error (.attributeError msg))
    ∧ (∃ msg, mutibsLookupAttr "rfind_all" = .error (.attributeError msg)) :=
  ⟨⟨by decide, by decide⟩, ⟨_, rfl⟩, ⟨_, rfl⟩⟩

/-- Translation of `BitsMethods.__copy__`: the body is `return self`. -/
def __copy__ (self : Bits) : Bits := self

/-- C9: `copy.copy` on a `Tibs` invokes `__copy__`, whose body returns the
receiver itself rather than constructing a fresh copy; in the value model the
function is the identity for every sequence regardless of length or
content. -/
theorem C9_copy_returns_self : ∀ t : Bits, __copy__ t = t :=
  fun _ => rfl

/-! ### `from_dtype` error wrapping

`dtype.pack` lives in the Rust/dtype layer; its outcome is abstracted as a
`PackOutcome` argument. -/

/-- Modelled from the spec: the outcome of `dtype.pack(value)` — packed bits,
or a raised value error or type error. -/
inductive PackOutcome where
  | ok (bits : Bits)
  | valueError (msg : String)
  | typeError (msg : String)
deriving DecidableEq, Repr

/-- Modelled from the spec: `Tibs._as_mutable_bits` converts to the mutable
type, copying storage and preserving bit content. -/
def asMutableBits (b : Bits) : Bits := b

namespace Tibs

/-- Translation of `BitsMethods.from_dtype`: pack the value, converting a pack
`ValueError` or `TypeError` into a `ValueError` with the standard message. -/
def from_dtype (packResult : PackOutcome) (valueStr dtypeStr : String) :
    Except PyErr Bits :=
  match packResult with
  | .ok xt => .ok xt
  | .valueError m | .typeError m =>
    .error (.valueError ("Can\x27t pack a value of " ++ valueStr ++
      " with a Dtype \x27" ++ dtypeStr ++ "\x27: " ++ m))

end Tibs

namespace Mutibs

/-- Translation of `MutableBitsMethods.from_dtype`: identical to the immutable
version, except the packed result is converted with `_as_mutable_bits`. -/
def from_dtype (packResult : PackOutcome) (valueStr dtypeStr : String) :
    Except PyErr Bits :=
  match packResult with
  | .ok xt => .ok (asMutableBits xt)
  | .valueError m | .typeError m =>
    .error (.valueError ("Can\x27t pack a value of " ++ valueStr ++
      " with a Dtype \x27" ++ dtypeStr ++ "\x27: " ++ m))

end Mutibs

/-- C10: when packing fails with a value error or a type error, both
`Tibs.from_dtype` and `Mutibs.from_dtype` raise a value error (never a type
error) whose message begins with the fixed prefix; when packing succeeds, the
two constructors produce identical bit content. -/
theorem C10_from_dtype_wraps_pack_errors (pr : PackOutcome)
    (vs ds : String) :
    (∀ xt, pr = .ok xt →
      Tibs.from_dtype pr vs ds = .ok xt
      ∧ Mutibs.from_dtype pr vs ds = .ok xt)
    ∧ (∀ m, (pr = .valueError m ∨ pr = .typeError m) →
      ∃ msg rest, Tibs.from_dtype pr vs ds = .error (.valueError msg)
        ∧ Mutibs.from_dtype pr vs ds = .error (.valueError msg)
        ∧ msg = "Can\x27t pack a value of " ++ rest) := by
  constructor
  · rintro xt rfl
    exact ⟨rfl, rfl⟩
  · rintro m (rfl | rfl) <;>
      exact ⟨_, vs ++ " with a Dtype \x27" ++ ds ++ "\x27: " ++ m, rfl, rfl,
        by simp [String.append_assoc]⟩

theorem C10_from_dtype_wraps_pack_errors_witness :
    (Tibs.from_dtype (.ok [true]) "5" "u8" = .ok [true]
      ∧ Mutibs.from_dtype (.ok [true]) "5" "u8" = .ok [true])
    ∧ (∃ msg rest,
        Tibs.from_dtype (.typeError "boom") "5" "u8"
          = .error (.valueError msg)
        ∧ Mutibs.from_dtype (.typeError "boom") "5" "u8"
          = .error (.valueError msg)
        ∧ msg = "Can\x27t pack a value of " ++ rest) :=
  ⟨(C10_from_dtype_wraps_pack_errors (.ok [true]) "5" "u8").1 [true] rfl,
   (C10_from_dtype_wraps_pack_errors (.typeError "boom") "5" "u8").2 "boom"
     (Or.inr rfl)⟩

end TibsModel
